import Mathlib

/-!
# stegosaurus: a static template-tree renderer

A shallow embedding of `stegosaurus.go`.

* Go `[]byte` and `string` values are lists of byte values (`Bytes`).
* Go's `(value, error)` results are `Except`, a bare `error` result is an
  `Option Error` (`none` is Go's `nil`).
* The packages the program imports are not part of the repository.  The ones with
  a small, documented behaviour (`strings`, `path/filepath`, the matching of the one
  pattern handed to `regexp`) are written out; the others (`os`, `io/ioutil`,
  `html/template`, the YAML parser, the cloner) are records of operations that the
  program's functions receive as arguments.
* `fmt.Printf` progress notices are not modelled.
-/

namespace Stegosaurus

/-- Go `[]byte` / `string`: a list of byte values. -/
abbrev Bytes := List Nat

/-- Go `error` values are identified by their message. -/
abbrev Error := String

/-- The UTF-8 bytes of a string literal of the source. -/
def bytes (s : String) : Bytes :=
  s.toList.flatMap fun c => (String.utf8EncodeChar c).map UInt8.toNat

/-! ## `regexp`: the pattern `(?m)^---\s*$`

Go's `regexp` returns the leftmost match and, among the matches starting there, the
one a backtracking search finds first.  The pattern of `processFrontmatter` is a
sequence of the four instruction kinds below, and `matchProg` is that backtracking
search.  The text is walked byte by byte: every byte the pattern can consume or test
is ASCII, and a line feed is never part of a longer UTF-8 sequence.
-/

/-- One element of a pattern that is a plain sequence. -/
inductive Inst where
  /-- Go `^` under `(?m)`: at the start of the text or right after a line feed. -/
  | beginLine
  /-- Go `$` under `(?m)`: at the end of the text or right before a line feed. -/
  | endLine
  /-- A literal byte. -/
  | byte (b : Nat)
  /-- Greedy `c*` for a byte class `c`. -/
  | star (cls : Nat → Bool)

/-- Greedy repetition: consume one more byte of the class and go on; when that
fails, fall back to the continuation `k` at the current position.  The result is
the number of bytes consumed. -/
def starLoop (cls : Nat → Bool) (k : Option Nat → Bytes → Option Nat) :
    Option Nat → Bytes → Option Nat
  | prev, [] => k prev []
  | prev, b :: rest =>
    if cls b then
      match starLoop cls k (some b) rest with
      | some n => some (n + 1)
      | none => k prev (b :: rest)
    else k prev (b :: rest)

/-- Backtracking match of a pattern at the current position; `prev` is the byte
before the position (`none` at the start of the text), `rest` the text from the
position on.  The result is the length of the match. -/
def matchProg : List Inst → Option Nat → Bytes → Option Nat
  | [], _, _ => some 0
  | .beginLine :: is, prev, rest =>
    if prev = none ∨ prev = some 10 then matchProg is prev rest else none
  | .endLine :: is, prev, rest =>
    if rest = [] ∨ rest.head? = some 10 then matchProg is prev rest else none
  | .byte c :: is, _, rest =>
    match rest with
    | [] => none
    | b :: rest => if b = c then (matchProg is (some b) rest).map (· + 1) else none
  | .star cls :: is, prev, rest => starLoop cls (matchProg is) prev rest

/-- The class `\s` of Go's `regexp`: tab, line feed, form feed, carriage return,
space. -/
def isSpace (b : Nat) : Bool := b = 9 || b = 10 || b = 12 || b = 13 || b = 32

/-- The compiled pattern `(?m)^---\s*$`. -/
def frontmatterRegexp : List Inst :=
  [.beginLine, .byte 45, .byte 45, .byte 45, .star isSpace, .endLine]

/-- Leftmost match: try every start position in increasing order. -/
def findFrom (p : List Inst) : Option Nat → Bytes → Nat → Option (Nat × Nat)
  | prev, [], pos =>
    match matchProg p prev [] with
    | some n => some (pos, pos + n)
    | none => none
  | prev, b :: rest, pos =>
    match matchProg p prev (b :: rest) with
    | some n => some (pos, pos + n)
    | none => findFrom p (some b) rest (pos + 1)

/-- Go `(*Regexp).FindIndex`: start and end offset of the leftmost match, `none` for
Go's `nil`. -/
def FindIndex (p : List Inst) (data : Bytes) : Option (Nat × Nat) :=
  findFrom p none data 0

/-! ## Contexts -/

/-- A template context: what a YAML document decodes to. -/
inductive Value where
  | null
  | scalar (s : Bytes)
  | seq (xs : List Value)
  | map (kvs : List (Value × Value))

/-- The two library calls of `processFrontmatter`. -/
structure Deps where
  /-- Go `conversion.NewCloner().DeepCopy(context)`. -/
  DeepCopy : Value → Except Error Value
  /-- Go `yaml.Unmarshal(fmData, &retContext)`: the second argument is the value of
  `retContext` before the call, the result its value after the call. -/
  Unmarshal : Bytes → Value → Except Error Value

/-- Function `processFrontmatter` strips a leading YAML document from `data` and updates
`context` with its contents.  Go's `(nil, nil, err)` is `.error err`. -/
def processFrontmatter (deps : Deps) (data : Bytes) (context : Value) :
    Except Error (Bytes × Value) :=
  match FindIndex frontmatterRegexp data with
  | none => .ok (data, context)
  | some (fmStart0, fmStart1) =>
    if fmStart0 ≠ 0 then .ok (data, context)
    else
      let retData := data.drop fmStart1
      match FindIndex frontmatterRegexp retData with
      | none => .error "Cannot find end of front matter."
      | some (fmEnd0, fmEnd1) =>
        let fmData := retData.take fmEnd0
        let retData := retData.drop fmEnd1
        match deps.DeepCopy context with
        | .error err => .error err
        | .ok retContext =>
          match deps.Unmarshal fmData retContext with
          | .error err => .error err
          | .ok retContext => .ok (retData, retContext)

/-! ## `strings` -/

/-- Go `strings.HasPrefix`. -/
def HasPrefix (s pre : Bytes) : Bool :=
  decide (pre.length ≤ s.length) && s.take pre.length == pre

/-- Go `strings.HasSuffix`. -/
def HasSuffix (s suf : Bytes) : Bool :=
  decide (suf.length ≤ s.length) && s.drop (s.length - suf.length) == suf

/-- Go `strings.TrimPrefix`. -/
def TrimPrefix (s pre : Bytes) : Bytes :=
  if HasPrefix s pre then s.drop pre.length else s

/-- Go `strings.TrimSuffix`. -/
def TrimSuffix (s suf : Bytes) : Bytes :=
  if HasSuffix s suf then s.take (s.length - suf.length) else s

/-! ## `path/filepath`, for slash-separated paths without a volume name -/

/-- The loop of `filepath.Ext`, from the last byte backwards: `before` holds the
bytes not yet looked at, last first, and `acc` the bytes already passed. -/
def extLoop : Bytes → Bytes → Bytes
  | [], _ => []
  | c :: before, acc =>
    if c = 47 then []
    else if c = 46 then c :: acc
    else extLoop before (c :: acc)

/-- Go `filepath.Ext`: the suffix from the last dot of the last path element on, empty
when that element has no dot. -/
def Ext (path : Bytes) : Bytes := extLoop path.reverse []

/-- Go `filepath.Base`: the last path element, after trailing slashes are removed. -/
def Base (path : Bytes) : Bytes :=
  if path = [] then [46]
  else
    let path := (path.reverse.dropWhile (· == 47)).reverse
    let path := (path.reverse.takeWhile (· != 47)).reverse
    if path = [] then [47] else path

/-- One path element in `filepath.Clean`; `out` holds the elements kept so far, the
last one first. -/
def cleanElem (rooted : Bool) (out : List Bytes) (elem : Bytes) : List Bytes :=
  if elem = [] ∨ elem = [46] then out
  else if elem = [46, 46] then
    match out with
    | [] => if rooted then [] else [elem]
    | top :: rest => if top = [46, 46] then (if rooted then out else elem :: out) else rest
  else elem :: out

/-- Go `filepath.Clean`: drop empty and `.` elements, resolve `..` against the element
before it, `.` for an empty result. -/
def Clean (path : Bytes) : Bytes :=
  if path = [] then [46]
  else
    let rooted := decide (path.head? = some 47)
    let out := ((path.splitOn 47).foldl (cleanElem rooted) []).reverse
    let body := [47].intercalate out
    if rooted then 47 :: body else if body = [] then [46] else body

/-- Go `filepath.Join`: the elements from the first non-empty one on, joined with
slashes and cleaned. -/
def Join (elem : List Bytes) : Bytes :=
  match elem.dropWhile (· == []) with
  | [] => []
  | es => Clean ([47].intercalate es)

/-- Go `filepath.Dir`: everything up to the last slash, cleaned. -/
def Dir (path : Bytes) : Bytes :=
  Clean ((path.reverse.dropWhile (· != 47)).reverse)

/-- The non-empty elements of a cleaned path. -/
def pathElems (path : Bytes) : List Bytes :=
  (path.splitOn 47).filter (· != [])

/-- The elements of base and target after their common leading elements. -/
def dropCommon : List Bytes → List Bytes → List Bytes × List Bytes
  | b :: bs, t :: ts => if b = t then dropCommon bs ts else (b :: bs, t :: ts)
  | bs, ts => (bs, ts)

/-- Go `filepath.Rel`: the target relative to the base, both cleaned first: one `..`
for each base element left after the common ones, then the target elements left. -/
def Rel (basepath targpath : Bytes) : Except Error Bytes :=
  let base := Clean basepath
  let targ := Clean targpath
  if targ = base then .ok [46]
  else
    let base := if base = [46] then [] else base
    let baseSlashed := decide (base.head? = some 47)
    let targSlashed := decide (targ.head? = some 47)
    if baseSlashed ≠ targSlashed then .error "Rel: cannot make target relative to base"
    else
      match dropCommon (pathElems base) (pathElems targ) with
      | ([], ts) => .ok ([47].intercalate ts)
      | (b :: bs, ts) =>
        if ts ≠ [] ∧ b = [46, 46] then .error "Rel: cannot make target relative to base"
        else .ok ([47].intercalate (List.replicate (bs.length + 1) [46, 46] ++ ts))

/-! ## The operating system and the template engine -/

/-- What `filepath.Walk` hands to its callback for one file or directory. -/
structure WalkEntry where
  path : Bytes
  /-- Go `info.IsDir()`. -/
  isDir : Bool
  /-- The `err` argument of the callback. -/
  err : Option Error

/-- The `os`, `io` and `io/ioutil` calls of the program over a file-system state
`σ`. -/
structure OS (σ : Type) where
  /-- The entries `filepath.Walk(root, fn)` visits, in its order. -/
  WalkList : Bytes → σ → List WalkEntry
  /-- Go `ioutil.ReadFile(path)`: the bytes read and the error. -/
  ReadFile : Bytes → σ → Bytes × Option Error
  /-- Go `os.Open(path)`: the bytes the opened file yields, or the error. -/
  Open : Bytes → σ → Except Error Bytes
  /-- Go `os.MkdirAll(dir, os.ModePerm)`. -/
  MkdirAll : Bytes → σ → Option Error × σ
  /-- Go `os.Create(path)`. -/
  Create : Bytes → σ → Option Error × σ
  /-- Writing bytes to the file created at a path (`io.Copy` into it, or the template
  execution streaming into it). -/
  Write : Bytes → Bytes → σ → Option Error × σ

/-- The `html/template` calls of the program over a template-set type `τ`. -/
structure Engine (τ : Type) where
  /-- Go `t.New(name).Parse(text)`. -/
  NewParse : τ → Bytes → Bytes → Except Error τ
  /-- Go `t.Clone()`. -/
  Clone : τ → Except Error τ
  /-- Go `newT.Parse(text)`. -/
  Parse : τ → Bytes → Except Error τ
  /-- Go `newT.ExecuteTemplate(w, name, context)`: the bytes written to `w` and the
  error. -/
  ExecuteTemplate : τ → Bytes → Value → Bytes × Option Error

/-- Go `filepath.Walk` with a callback that never returns `filepath.SkipDir`: visit the
entries in order, stop at the first error. -/
def Walk {α : Type} (fn : WalkEntry → α → Option Error × α) :
    List WalkEntry → α → Option Error × α
  | [], a => (none, a)
  | e :: es, a =>
    match fn e a with
    | (some err, a) => (some err, a)
    | (none, a) => Walk fn es a

/-! ## The program -/

def templateDir : Bytes := bytes "templates"

def outputDir : Bytes := bytes "output"

/-- The callback of `loadBaseTemplates`. -/
def loadBaseTemplatesFn {σ τ : Type} (os : OS σ) (eng : Engine τ) (fs : σ)
    (e : WalkEntry) (t : τ) : Option Error × τ :=
  match e.err with
  | some err => (some err, t)
  | none =>
    if e.isDir then (none, t)
    else
      let basename := Base e.path
      -- Only handle files that start with _
      if !HasPrefix basename (bytes "_") then (none, t)
      else
        -- Only handle files with ".tmpl" extension
        let ext := Ext basename
        if ext ≠ bytes ".tmpl" then (none, t)
        else
          -- Strip off "_" and ".tmpl"
          let name := TrimPrefix (TrimSuffix basename (Ext basename)) (bytes "_")
          -- the `err` of `ReadFile` is overwritten by the next assignment
          let data := (os.ReadFile e.path fs).1
          match eng.NewParse t name data with
          | .error err => (some err, t)
          | .ok t => (none, t)

/-- Function `loadBaseTemplates` walks `templateDir` and loads all base templates into `t`. -/
def loadBaseTemplates {σ τ : Type} (os : OS σ) (eng : Engine τ) (fs : σ) (t : τ) :
    Option Error × τ :=
  Walk (loadBaseTemplatesFn os eng fs) (os.WalkList templateDir fs) t

/-- Function `copyFile` copies a file from `path` to `output`. -/
def copyFile {σ : Type} (os : OS σ) (path output : Bytes) (fs : σ) : Option Error × σ :=
  match os.Open path fs with
  | .error _ => (none, fs)
  | .ok s =>
    match os.MkdirAll (Dir output) fs with
    | (some err, fs) => (some err, fs)
    | (none, fs) =>
      match os.Create output fs with
      | (some err, fs) => (some err, fs)
      | (none, fs) =>
        match os.Write output s fs with
        | (some err, fs) => (some err, fs)
        | (none, fs) => (none, fs)

/-- Function `evalTemplate` evaluates a single template (`path`) and saves it to `output`. -/
def evalTemplate {σ τ : Type} (os : OS σ) (eng : Engine τ) (deps : Deps)
    (path output : Bytes) (t : τ) (context : Value) (fs : σ) : Option Error × σ :=
  match eng.Clone t with
  | .error err => (some err, fs)
  | .ok newT =>
    match os.ReadFile path fs with
    | (_, some err) => (some err, fs)
    | (tData, none) =>
      -- Pull out front matter
      match processFrontmatter deps tData context with
      | .error err => (some err, fs)
      | .ok (tData, context) =>
        match eng.Parse newT tData with
        | .error err => (some err, fs)
        | .ok newT =>
          match os.MkdirAll (Dir output) fs with
          | (some err, fs) => (some err, fs)
          | (none, fs) =>
            match os.Create output fs with
            | (some err, fs) => (some err, fs)
            | (none, fs) =>
              match eng.ExecuteTemplate newT (bytes "<root>") context with
              | (written, some err) => (some err, (os.Write output written fs).2)
              | (written, none) => os.Write output written fs

/-- The callback of `evalTemplates`. -/
def evalTemplatesFn {σ τ : Type} (os : OS σ) (eng : Engine τ) (deps : Deps) (t : τ)
    (context : Value) (e : WalkEntry) (fs : σ) : Option Error × σ :=
  match e.err with
  | some err => (some err, fs)
  | none =>
    if e.isDir then (none, fs)
    else
      let basename := Base e.path
      -- Skip if the file begins with "_"
      if HasPrefix basename (bytes "_") then (none, fs)
      else
        -- Find where we are going to put this output
        match Rel templateDir e.path with
        | .error err => (some err, fs)
        | .ok rel =>
          let output := Join [outputDir, rel]
          let ext := Ext basename
          if ext = bytes ".tmpl" then
            let output := TrimSuffix output (bytes ".tmpl")
            evalTemplate os eng deps e.path output t context fs
          else copyFile os e.path output fs

/-- Function `evalTemplates` walks `templateDir` and either copies files or evaluates
templates. -/
def evalTemplates {σ τ : Type} (os : OS σ) (eng : Engine τ) (deps : Deps) (t : τ)
    (context : Value) (fs : σ) : Option Error × σ :=
  Walk (evalTemplatesFn os eng deps t context) (os.WalkList templateDir fs) fs

/-! ## `gopkg.in/yaml.v2`: decoding into an `interface{}` variable -/

/-- The YAML parser of `gopkg.in/yaml.v2`: the document a byte buffer holds, `none`
for a buffer without a document. -/
abbrev YamlParser := Bytes → Except Error (Option Value)

/-- Go `yaml.Unmarshal(in, &v)` of `gopkg.in/yaml.v2` for a variable `v` of static type
`interface{}`, as in `processFrontmatter` (`retContext` is the `interface{}` result
of `DeepCopy`).  The decoder sees a target of kind `Interface`; for a mapping node it
makes a new map (`reflect.MakeMap`) and stores it in the interface, and likewise a
new value for a scalar or a sequence.  What the interface held before is not read.
A buffer without a document leaves the target as it is. -/
def UnmarshalInterface (parse : YamlParser) (input : Bytes) (out : Value) :
    Except Error Value :=
  match parse input with
  | .error err => .error err
  | .ok none => .ok out
  | .ok (some node) => .ok node

/-- The library calls with the YAML decoder above; a deep copy of a value is the
value. -/
def yamlDeps (parse : YamlParser) : Deps :=
  ⟨fun v => .ok v, UnmarshalInterface parse⟩

/-! ## Stand-ins for closed examples -/

/-- An in-memory file system: the regular files with their contents, and the paths
that cannot be opened for reading. -/
structure MemFS where
  files : List (Bytes × Bytes)
  unreadable : List Bytes
  deriving DecidableEq

/-- Store `content` at `path`. -/
def MemFS.put (fs : MemFS) (path content : Bytes) : MemFS :=
  { fs with files := (path, content) :: fs.files.filter (fun f => f.1 != path) }

/-- The operating system over `MemFS`: opening fails for a missing or unreadable
file, creating directories and files always succeeds. -/
def memOS : OS MemFS where
  WalkList root fs :=
    ⟨root, true, none⟩ ::
      (fs.files.filter (fun f => HasPrefix f.1 (root ++ [47]))).map
        (fun f => ⟨f.1, false, none⟩)
  ReadFile path fs :=
    if fs.unreadable.contains path then ([], some "permission denied")
    else
      match fs.files.lookup path with
      | some content => (content, none)
      | none => ([], some "no such file or directory")
  Open path fs :=
    if fs.unreadable.contains path then .error "permission denied"
    else
      match fs.files.lookup path with
      | some content => .ok content
      | none => .error "no such file or directory"
  MkdirAll _ fs := (none, fs)
  Create path fs := (none, fs.put path [])
  Write path content fs := (none, fs.put path content)

/-- A template engine that accepts every text and executes a template by emitting
its text as it is. -/
def echoEngine : Engine (List (Bytes × Bytes)) where
  NewParse t name text := .ok ((name, text) :: t)
  Clone t := .ok t
  Parse t text := .ok ((bytes "<root>", text) :: t)
  ExecuteTemplate t name _ :=
    match t.lookup name with
    | some text => (text, none)
    | none => ([], some "no such template")

/-- Library calls that cannot fail: the copy is the value itself, the decoder leaves
the target as it is. -/
def idDeps : Deps := ⟨fun v => .ok v, fun _ v => .ok v⟩

/-- A parser that knows the one document of the example. -/
def overrideParser : YamlParser := fun input =>
  if input = bytes "\nname: override\n" then
    .ok (some (.map [(.scalar (bytes "name"), .scalar (bytes "override"))]))
  else .error "yaml: unexpected input"

/-! ## Notions the statements use -/

/-- A name a directory listing can hold: not empty, no slash, neither `.` nor `..`. -/
def isFileName (c : Bytes) : Bool :=
  c != [] && !c.contains 47 && c != [46] && c != [46, 46]

/-- The rest of the line is blank: only `\s` bytes up to the next line feed or the
end of the text. -/
def blankLine : Bytes → Bool
  | [] => true
  | b :: rest => if b = 10 then true else isSpace b && blankLine rest

/-- The text starts with a delimiter line: `---` and then a blank rest of line. -/
def startsDelimiterLine : Bytes → Bool
  | a :: b :: c :: rest => a = 45 && b = 45 && c = 45 && blankLine rest
  | _ => false

/-- What `\s*$` consumes, written as one recursion: the outcome of `starLoop` with
the continuation `$`. -/
def spaceEnd : Bytes → Option Nat
  | [] => some 0
  | b :: rest =>
    if isSpace b then
      match spaceEnd rest with
      | some n => some (n + 1)
      | none => if b = 10 then some 0 else none
    else none

/-- The byte before the position reached after reading `a`. -/
def lastOr (prev : Option Nat) (a : Bytes) : Option Nat :=
  match a.getLast? with
  | some b => some b
  | none => prev

/-- A delimiter line: `---`, trailing whitespace `w`, line feed. -/
def delimiterLine (w : Bytes) : Bytes := 45 :: 45 :: 45 :: (w ++ [10])

/-- The text from the start of each line after the first one. -/
def linesAfter : Bytes → List Bytes
  | [] => []
  | b :: rest => if b = 10 then rest :: linesAfter rest else linesAfter rest

/-- What `processFrontmatter` does once both delimiters are located: clone the
context, decode `fmData` into the clone, return `body` with the result. -/
def finish (deps : Deps) (fmData body : Bytes) (context : Value) :
    Except Error (Bytes × Value) :=
  match deps.DeepCopy context with
  | .error err => .error err
  | .ok retContext =>
    match deps.Unmarshal fmData retContext with
    | .error err => .error err
    | .ok retContext => .ok (body, retContext)

/-! ## Theorems -/

theorem bytes_underscore : bytes "_" = [95] := by decide

theorem bytes_tmpl : bytes ".tmpl" = [46, 116, 109, 112, 108] := by decide

theorem intercalate_cons_cons (x y : Bytes) (ys : List Bytes) :
    [47].intercalate (x :: y :: ys) = x ++ 47 :: [47].intercalate (y :: ys) := by
  simp [List.intercalate, List.intersperse]

theorem isFileName_ne_nil {c : Bytes} (h : isFileName c = true) : c ≠ [] := by
  intro hc; subst hc; simp [isFileName] at h

theorem isFileName_no_slash {c : Bytes} (h : isFileName c = true) : 47 ∉ c := by
  simp [isFileName] at h
  exact h.1.1.2

theorem splitOn_intercalate_names (comps : List Bytes) (hne : comps ≠ [])
    (h : ∀ c ∈ comps, isFileName c = true) :
    ([47].intercalate comps).splitOn 47 = comps :=
  List.splitOn_intercalate comps 47 (fun c hc => isFileName_no_slash (h c hc)) hne

theorem foldl_cleanElem_names (rooted : Bool) (comps : List Bytes) (acc : List Bytes)
    (h : ∀ c ∈ comps, isFileName c = true) :
    comps.foldl (cleanElem rooted) acc = comps.reverse ++ acc := by
  induction comps generalizing acc with
  | nil => rfl
  | cons c comps ih =>
    have hc := h c (by simp)
    have hstep : cleanElem rooted acc c = c :: acc := by
      simp [isFileName] at hc
      simp [cleanElem, hc]
    simp [List.foldl, hstep, ih (c :: acc) (fun x hx => h x (by simp [hx]))]

theorem intercalate_names_head (comps : List Bytes) (hne : comps ≠ [])
    (h : ∀ c ∈ comps, isFileName c = true) :
    ∃ x rest, [47].intercalate comps = x :: rest ∧ x ≠ 47 := by
  match comps with
  | [] => exact absurd rfl hne
  | [c] =>
    have hc := h c (by simp)
    cases c with
    | nil => simp [isFileName] at hc
    | cons x rest =>
      refine ⟨x, rest, by simp [List.intercalate], ?_⟩
      rintro rfl
      simp [isFileName] at hc
  | c :: d :: comps =>
    have hc := h c (by simp)
    cases c with
    | nil => simp [isFileName] at hc
    | cons x rest =>
      refine ⟨x, rest ++ 47 :: [47].intercalate (d :: comps), by
        rw [intercalate_cons_cons]; simp, ?_⟩
      rintro rfl
      simp [isFileName] at hc

theorem Clean_names (comps : List Bytes) (hne : comps ≠ [])
    (h : ∀ c ∈ comps, isFileName c = true) :
    Clean ([47].intercalate comps) = [47].intercalate comps := by
  obtain ⟨x, rest, hx, hx47⟩ := intercalate_names_head comps hne h
  unfold Clean
  rw [splitOn_intercalate_names comps hne h]
  simp only [foldl_cleanElem_names _ _ _ h]
  simp [hx, hx47]

theorem intercalate_single (c : Bytes) : [47].intercalate [c] = c := by
  simp [List.intercalate]

theorem intercalate_cons_names (c : Bytes) (comps : List Bytes) (hne : comps ≠ []) :
    [47].intercalate (c :: comps) = c ++ 47 :: [47].intercalate comps := by
  cases comps with
  | nil => exact absurd rfl hne
  | cons d comps => exact intercalate_cons_cons c d comps

theorem pathElems_names (comps : List Bytes) (hne : comps ≠ [])
    (h : ∀ c ∈ comps, isFileName c = true) :
    pathElems ([47].intercalate comps) = comps := by
  unfold pathElems
  rw [splitOn_intercalate_names comps hne h, List.filter_eq_self]
  intro c hc
  simpa using isFileName_ne_nil (h c hc)

theorem dropCommon_self (c : Bytes) (comps : List Bytes) :
    dropCommon [c] (c :: comps) = ([], comps) := by
  cases comps <;> simp [dropCommon]

theorem Rel_names (base : Bytes) (comps : List Bytes) (hbase : isFileName base = true)
    (hne : comps ≠ []) (h : ∀ c ∈ comps, isFileName c = true) :
    Rel base (base ++ 47 :: [47].intercalate comps) = .ok ([47].intercalate comps) := by
  have hall : ∀ c ∈ base :: comps, isFileName c = true := by
    intro c hc
    rcases List.mem_cons.mp hc with rfl | hc
    · exact hbase
    · exact h c hc
  have hb1 : ∀ c ∈ [base], isFileName c = true := by simpa using hbase
  have hpath : base ++ 47 :: [47].intercalate comps = [47].intercalate (base :: comps) :=
    (intercalate_cons_names base comps hne).symm
  have hcb : Clean base = base := by
    simpa [intercalate_single] using Clean_names [base] (by simp) hb1
  have hct : Clean ([47].intercalate (base :: comps)) = [47].intercalate (base :: comps) :=
    Clean_names _ (by simp) hall
  have hpb : pathElems base = [base] := by
    simpa [intercalate_single] using pathElems_names [base] (by simp) hb1
  have hpt : pathElems ([47].intercalate (base :: comps)) = base :: comps :=
    pathElems_names _ (by simp) hall
  obtain ⟨x, rest, hx, hx47⟩ := intercalate_names_head (base :: comps) (by simp) hall
  obtain ⟨y, rest2, hy, hy47⟩ := intercalate_names_head [base] (by simp) hb1
  rw [intercalate_single] at hy
  have hne2 : [47].intercalate (base :: comps) ≠ base := by
    rw [← hpath]
    intro heq
    have := congrArg List.length heq
    simp at this
  have hdot : base ≠ [46] := by
    intro hb
    subst hb
    simp [isFileName] at hbase
  unfold Rel
  rw [hpath]
  simp only [hcb, hct, hne2, if_false, hdot, hpb, hpt, dropCommon_self]
  rw [hx]
  rw [hy]
  simp [hx47, hy47]

theorem Join_names (base : Bytes) (comps : List Bytes) (hbase : isFileName base = true)
    (hne : comps ≠ []) (h : ∀ c ∈ comps, isFileName c = true) :
    Join [base, [47].intercalate comps] = base ++ 47 :: [47].intercalate comps := by
  have hall : ∀ c ∈ base :: comps, isFileName c = true := by
    intro c hc
    rcases List.mem_cons.mp hc with rfl | hc
    · exact hbase
    · exact h c hc
  have hb : base ≠ [] := isFileName_ne_nil hbase
  have hct := Clean_names (base :: comps) (by simp) hall
  rw [intercalate_cons_names base comps hne] at hct
  obtain ⟨x, rest, rfl⟩ : ∃ x rest, base = x :: rest := by
    cases base with
    | nil => exact absurd rfl hb
    | cons x rest => exact ⟨x, rest, rfl⟩
  unfold Join
  rw [List.dropWhile_cons_of_neg (by simp)]
  simp only [intercalate_cons_cons, intercalate_single]
  exact hct

theorem takeWhile_ne_append (l r : Bytes) (h : 47 ∉ l) :
    (l ++ 47 :: r).takeWhile (· != 47) = l := by
  induction l with
  | nil => simp
  | cons x l ih =>
    have hx : x ≠ 47 := fun hx => h (by simp [hx])
    have hl : 47 ∉ l := fun hl => h (by simp [hl])
    rw [List.cons_append, List.takeWhile_cons_of_pos (by simpa using hx), ih hl]

/-- The base name of a path that ends in a file name. -/
theorem Base_append_name (pre c : Bytes) (hc : isFileName c = true) :
    Base (pre ++ 47 :: c) = c := by
  have hne := isFileName_ne_nil hc
  have hns := isFileName_no_slash hc
  have hrev : 47 ∉ c.reverse := by simpa using hns
  obtain ⟨z, cr, hcr⟩ : ∃ z cr, c.reverse = z :: cr := by
    cases hr : c.reverse with
    | nil => simp at hr; exact absurd hr hne
    | cons z cr => exact ⟨z, cr, rfl⟩
  have hz : z ≠ 47 := by
    intro hz
    apply hrev
    rw [hcr, hz]
    simp
  have hpath : (pre ++ 47 :: c).reverse = c.reverse ++ 47 :: pre.reverse := by simp
  unfold Base
  simp only [List.append_eq_nil, reduceCtorEq, and_false, if_false, hpath]
  have hdw : (c.reverse ++ 47 :: pre.reverse).dropWhile (· == 47) =
      c.reverse ++ 47 :: pre.reverse := by
    rw [hcr, List.cons_append, List.dropWhile_cons_of_neg (by simpa using hz)]
  simp only [hdw, List.reverse_reverse, takeWhile_ne_append _ _ hrev]
  simp [hne]

theorem Base_intercalate (base : Bytes) (comps : List Bytes) (hne : comps ≠ [])
    (h : ∀ c ∈ comps, isFileName c = true) :
    Base (base ++ 47 :: [47].intercalate comps) = comps.getLast hne := by
  induction comps generalizing base with
  | nil => exact absurd rfl hne
  | cons c comps ih =>
    cases comps with
    | nil =>
      simp only [intercalate_single, List.getLast_singleton]
      exact Base_append_name base c (h c (by simp))
    | cons d comps =>
      rw [intercalate_cons_cons]
      have := ih (base ++ 47 :: c) (by simp) (fun x hx => h x (by simp [hx]))
      simp only [List.append_assoc, List.cons_append] at this
      rw [this]
      simp

theorem extLoop_suffix (before acc : Bytes) :
    extLoop before acc = [] ∨ ∃ pre, before.reverse ++ acc = pre ++ extLoop before acc := by
  induction before generalizing acc with
  | nil => left; rfl
  | cons c before ih =>
    unfold extLoop
    by_cases h47 : c = 47
    · left; simp [h47]
    · by_cases h46 : c = 46
      · right
        exact ⟨before.reverse, by simp [h46]⟩
      · rcases ih (c :: acc) with h | ⟨pre, h⟩
        · left; simp [h47, h46, h]
        · right
          exact ⟨pre, by simpa [h47, h46] using h⟩

theorem Ext_suffix (b : Bytes) (h : Ext b ≠ []) : ∃ pre, b = pre ++ Ext b := by
  rcases extLoop_suffix b.reverse [] with h0 | ⟨pre, hp⟩
  · exact absurd h0 h
  · exact ⟨pre, by simpa [Ext] using hp⟩

theorem HasSuffix_append (pre suf : Bytes) : HasSuffix (pre ++ suf) suf = true := by
  simp [HasSuffix]

theorem TrimSuffix_append (pre suf : Bytes) : TrimSuffix (pre ++ suf) suf = pre := by
  simp [TrimSuffix, HasSuffix_append]

theorem HasPrefix_underscore (s : Bytes) :
    HasPrefix s [95] = true ↔ ∃ rest, s = 95 :: rest := by
  cases s with
  | nil => simp [HasPrefix]
  | cons x rest => simp [HasPrefix]

theorem TrimPrefix_underscore (rest : Bytes) : TrimPrefix (95 :: rest) [95] = rest := by
  simp [TrimPrefix, HasPrefix]

/-- The name under which a file with a leading `_` and the extension `.tmpl` is
registered. -/
theorem partial_name (b : Bytes) (hp : HasPrefix b (bytes "_") = true)
    (he : Ext b = bytes ".tmpl") :
    95 :: TrimPrefix (TrimSuffix b (Ext b)) (bytes "_") ++ bytes ".tmpl" = b := by
  rw [bytes_underscore] at hp ⊢
  obtain ⟨rest, hrest⟩ := (HasPrefix_underscore b).mp hp
  obtain ⟨pre, hpre⟩ := Ext_suffix b (by rw [he, bytes_tmpl]; simp)
  rw [he] at hpre ⊢
  have hpre2 : pre ≠ [] := by
    intro h
    rw [h, hrest, bytes_tmpl] at hpre
    simp at hpre
  obtain ⟨x, pre1, rfl⟩ : ∃ x pre1, pre = x :: pre1 := by
    cases pre with
    | nil => exact absurd rfl hpre2
    | cons x pre1 => exact ⟨x, pre1, rfl⟩
  have hx : x = 95 := by
    rw [hrest] at hpre
    simp at hpre
    exact hpre.1.symm
  subst hx
  conv_lhs => rw [hpre, TrimSuffix_append, TrimPrefix_underscore]
  rw [hpre]

theorem isSpace_ten : isSpace 10 = true := by decide

theorem ne_ten_of_not_isSpace {b : Nat} (h : isSpace b = false) : b ≠ 10 := by
  rintro rfl
  simp [isSpace_ten] at h

theorem starLoop_eq_spaceEnd (k : Option Nat → Bytes → Option Nat)
    (hk : ∀ p r, k p r = if r = [] ∨ r.head? = some 10 then some 0 else none)
    (prev : Option Nat) (rest : Bytes) :
    starLoop isSpace k prev rest = spaceEnd rest := by
  induction rest generalizing prev with
  | nil => simp [starLoop, spaceEnd, hk]
  | cons b rest ih =>
    unfold starLoop spaceEnd
    rw [ih]
    by_cases hb : isSpace b = true
    · simp only [hb, if_true]
      cases spaceEnd rest with
      | some n => rfl
      | none => simp [hk]
    · have hb2 : isSpace b = false := by simpa using hb
      have := ne_ten_of_not_isSpace hb2
      simp [hb2, hk, this]

theorem spaceEnd_eq_none_iff (rest : Bytes) :
    spaceEnd rest = none ↔ blankLine rest = false := by
  induction rest with
  | nil => simp [spaceEnd, blankLine]
  | cons b rest ih =>
    unfold spaceEnd blankLine
    by_cases hb : isSpace b = true
    · by_cases h10 : b = 10
      · cases h : spaceEnd rest <;> simp [h10, isSpace_ten]
      · cases h : spaceEnd rest with
        | none => simp [hb, h10, ih.mp h]
        | some n =>
          have : blankLine rest ≠ false := fun hf => by
            rw [ih.mpr hf] at h; cases h
          simp [hb, h10, this]
    · have hb2 : isSpace b = false := by simpa using hb
      have := ne_ten_of_not_isSpace hb2
      simp [hb2, this]

theorem spaceEnd_spec (rest : Bytes) (n : Nat) (h : spaceEnd rest = some n) :
    n ≤ rest.length ∧ (∀ b ∈ rest.take n, isSpace b = true) ∧
      (rest.drop n = [] ∨ ∃ t, rest.drop n = 10 :: t ∧ blankLine t = false) := by
  induction rest generalizing n with
  | nil =>
    simp [spaceEnd] at h
    subst h
    simp
  | cons b rest ih =>
    unfold spaceEnd at h
    by_cases hb : isSpace b = true
    · simp only [hb, if_true] at h
      cases hs : spaceEnd rest with
      | some m =>
        rw [hs] at h
        simp at h
        subst h
        obtain ⟨h1, h2, h3⟩ := ih m hs
        refine ⟨by simpa using h1, ?_, by simpa using h3⟩
        intro x hx
        simp at hx
        rcases hx with rfl | hx
        · exact hb
        · exact h2 x hx
      | none =>
        rw [hs] at h
        by_cases h10 : b = 10
        · simp [h10] at h
          subst h
          subst h10
          refine ⟨by simp, by simp, Or.inr ⟨rest, by simp, (spaceEnd_eq_none_iff rest).mp hs⟩⟩
        · simp [h10] at h
    · simp [hb] at h

theorem spaceEnd_append_ten (w B : Bytes) (hw : ∀ b ∈ w, isSpace b = true)
    (hB : blankLine B = false) : spaceEnd (w ++ 10 :: B) = some w.length := by
  induction w with
  | nil =>
    simp [spaceEnd, isSpace_ten, (spaceEnd_eq_none_iff B).mpr hB]
  | cons b w ih =>
    have hb : isSpace b = true := hw b (by simp)
    have := ih (fun x hx => hw x (by simp [hx]))
    simp [spaceEnd, hb, this]

theorem spaceEnd_all_space (w : Bytes) (hw : ∀ b ∈ w, isSpace b = true) :
    spaceEnd w = some w.length := by
  induction w with
  | nil => simp [spaceEnd]
  | cons b w ih =>
    have hb : isSpace b = true := hw b (by simp)
    have := ih (fun x hx => hw x (by simp [hx]))
    simp [spaceEnd, hb, this]

/-- The pattern at a position: it needs a line start and `---`, and then consumes
what `\s*$` consumes. -/
theorem matchProg_frontmatter (prev : Option Nat) (rest : Bytes) :
    matchProg frontmatterRegexp prev rest =
      if prev = none ∨ prev = some 10 then
        match rest with
        | 45 :: 45 :: 45 :: t => (spaceEnd t).map (· + 3)
        | _ => none
      else none := by
  unfold frontmatterRegexp
  by_cases hp : prev = none ∨ prev = some 10
  · simp only [matchProg, hp, if_true]
    match rest with
    | [] => rfl
    | [a] => by_cases h : a = 45 <;> simp [h]
    | [a, b] => by_cases h : a = 45 <;> by_cases h2 : b = 45 <;> simp [h, h2]
    | a :: b :: c :: t =>
      by_cases h : a = 45 <;> by_cases h2 : b = 45 <;> by_cases h3 : c = 45 <;>
        simp [h, h2, h3]
      rw [starLoop_eq_spaceEnd _ (fun _ _ => rfl)]
  · simp [matchProg, hp]

theorem startsDelimiterLine_cons_ne (x : Nat) (t : Bytes) (h : x ≠ 45) :
    startsDelimiterLine (x :: t) = false := by
  match t with
  | [] => rfl
  | [a] => rfl
  | a :: b :: t => simp [startsDelimiterLine, h]

theorem matchProg_isSome_iff (prev : Option Nat) (rest : Bytes) :
    (matchProg frontmatterRegexp prev rest).isSome = true ↔
      (prev = none ∨ prev = some 10) ∧ startsDelimiterLine rest = true := by
  rw [matchProg_frontmatter]
  by_cases hp : prev = none ∨ prev = some 10
  · simp only [hp, if_true, true_and]
    match rest with
    | [] => simp [startsDelimiterLine]
    | [a] => simp [startsDelimiterLine]
    | [a, b] => simp [startsDelimiterLine]
    | a :: b :: c :: t =>
      by_cases h : a = 45 <;> by_cases h2 : b = 45 <;> by_cases h3 : c = 45 <;>
        simp [h, h2, h3, startsDelimiterLine]
      have := spaceEnd_eq_none_iff t
      cases hs : spaceEnd t with
      | none => simp [this.mp hs]
      | some n =>
        cases hb : blankLine t with
        | true => simp
        | false => rw [this.mpr hb] at hs; cases hs
  · simp [hp]

theorem matchProg_some_inv (prev : Option Nat) (rest : Bytes) (n : Nat)
    (h : matchProg frontmatterRegexp prev rest = some n) :
    (prev = none ∨ prev = some 10) ∧
      ∃ t m, rest = 45 :: 45 :: 45 :: t ∧ spaceEnd t = some m ∧ n = m + 3 := by
  rw [matchProg_frontmatter] at h
  by_cases hp : prev = none ∨ prev = some 10
  · refine ⟨hp, ?_⟩
    simp only [hp, if_true] at h
    match rest with
    | [] => simp at h
    | [a] => simp at h
    | [a, b] => simp at h
    | a :: b :: c :: t =>
      by_cases h1 : a = 45 <;> by_cases h2 : b = 45 <;> by_cases h3 : c = 45 <;>
        simp [h1, h2, h3] at h
      obtain ⟨m, hm, rfl⟩ := h
      exact ⟨t, m, by simp [h1, h2, h3], hm, rfl⟩
  · simp [hp] at h

theorem lastOr_nil (prev : Option Nat) : lastOr prev [] = prev := rfl

theorem lastOr_cons (prev : Option Nat) (x : Nat) (a : Bytes) :
    lastOr prev (x :: a) = lastOr (some x) a := by
  cases a with
  | nil => rfl
  | cons y a =>
    unfold lastOr
    rw [List.getLast?_cons_cons]
    cases h : (y :: a).getLast? with
    | none => simp at h
    | some b => rfl

theorem lastOr_eq_none (a : Bytes) (h : lastOr none a = none) : a = [] := by
  cases a with
  | nil => rfl
  | cons x a =>
    unfold lastOr at h
    cases hl : (x :: a).getLast? with
    | none => simp at hl
    | some b => rw [hl] at h; cases h

theorem lastOr_eq_some (a : Bytes) (x : Nat) (h : lastOr none a = some x) :
    ∃ a1, a = a1 ++ [x] := by
  unfold lastOr at h
  cases hl : a.getLast? with
  | none => rw [hl] at h; cases h
  | some b =>
    rw [hl] at h
    cases h
    rw [List.getLast?_eq_some_iff] at hl
    exact hl

theorem findFrom_first (p : List Inst) (a b : Bytes) (prev : Option Nat) (pos n : Nat)
    (hno : ∀ a1 a2, a = a1 ++ a2 → a2 ≠ [] → matchProg p (lastOr prev a1) (a2 ++ b) = none)
    (hm : matchProg p (lastOr prev a) b = some n) :
    findFrom p prev (a ++ b) pos = some (pos + a.length, pos + a.length + n) := by
  induction a generalizing prev pos with
  | nil =>
    cases b <;> simp [findFrom, lastOr_nil] at hm ⊢ <;> simp [hm]
  | cons x a ih =>
    have h0 := hno [] (x :: a) rfl (by simp)
    rw [lastOr_nil] at h0
    rw [List.cons_append] at h0 ⊢
    unfold findFrom
    simp only [h0]
    rw [ih (some x) (pos + 1)]
    · simp; omega
    · intro a1 a2 ha ha2
      have := hno (x :: a1) a2 (by simp [ha]) ha2
      rwa [lastOr_cons] at this
    · rwa [lastOr_cons] at hm

theorem findFrom_eq_none (p : List Inst) (rest : Bytes) (prev : Option Nat) (pos : Nat)
    (hno : ∀ a b, rest = a ++ b → matchProg p (lastOr prev a) b = none) :
    findFrom p prev rest pos = none := by
  induction rest generalizing prev pos with
  | nil =>
    have := hno [] [] rfl
    rw [lastOr_nil] at this
    simp [findFrom, this]
  | cons x rest ih =>
    have h0 := hno [] (x :: rest) rfl
    rw [lastOr_nil] at h0
    unfold findFrom
    simp only [h0]
    apply ih
    intro a b hab
    have := hno (x :: a) b (by simp [hab])
    rwa [lastOr_cons] at this

theorem findFrom_inv (p : List Inst) (rest : Bytes) (prev : Option Nat) (pos s e : Nat)
    (h : findFrom p prev rest pos = some (s, e)) :
    ∃ a b n, rest = a ++ b ∧ s = pos + a.length ∧ e = pos + a.length + n ∧
      matchProg p (lastOr prev a) b = some n := by
  induction rest generalizing prev pos with
  | nil =>
    unfold findFrom at h
    cases hm : matchProg p prev [] with
    | none => simp [hm] at h
    | some n =>
      simp [hm] at h
      exact ⟨[], [], n, rfl, by simp [h.1], by simp [h.2, ← h.1], by simpa [lastOr_nil] using hm⟩
  | cons x rest ih =>
    unfold findFrom at h
    cases hm : matchProg p prev (x :: rest) with
    | none =>
      simp only [hm] at h
      obtain ⟨a, b, n, hab, hs, he, hmm⟩ := ih _ _ h
      refine ⟨x :: a, b, n, by simp [hab], by simp [hs]; omega, by simp [he]; omega, ?_⟩
      rwa [lastOr_cons]
    | some n =>
      simp [hm] at h
      exact ⟨[], x :: rest, n, rfl, by simp [h.1], by simp [← h.2, ← h.1],
        by simpa [lastOr_nil] using hm⟩

theorem mem_linesAfter (a b : Bytes) : b ∈ linesAfter (a ++ 10 :: b) := by
  induction a with
  | nil => simp [linesAfter]
  | cons x a ih =>
    by_cases hx : x = 10
    · simp [linesAfter, hx]
      right
      simpa using ih
    · simpa [linesAfter, hx] using ih

theorem FindIndex_zero_inv (data : Bytes) (e : Nat)
    (h : FindIndex frontmatterRegexp data = some (0, e)) :
    ∃ t m, data = 45 :: 45 :: 45 :: t ∧ spaceEnd t = some m ∧ e = m + 3 := by
  obtain ⟨a, b, n, hab, hs, he, hm⟩ := findFrom_inv _ _ _ _ _ _ h
  have ha : a = [] := by
    have : a.length = 0 := by omega
    simpa using this
  subst ha
  obtain ⟨-, t, m, hb, hsp, hn⟩ := matchProg_some_inv _ _ _ hm
  exact ⟨t, m, by simpa [hb] using hab, hsp, by simp [he, hn]⟩

theorem FindIndex_of_startsDelimiterLine (data : Bytes)
    (h : startsDelimiterLine data = true) :
    ∃ t m, data = 45 :: 45 :: 45 :: t ∧ spaceEnd t = some m ∧
      FindIndex frontmatterRegexp data = some (0, m + 3) := by
  have hs := (matchProg_isSome_iff none data).mpr ⟨Or.inl rfl, h⟩
  cases hm : matchProg frontmatterRegexp none data with
  | none => simp [hm] at hs
  | some n =>
    obtain ⟨-, t, m, hd, hsp, hn⟩ := matchProg_some_inv _ _ _ hm
    refine ⟨t, m, hd, hsp, ?_⟩
    have := findFrom_first frontmatterRegexp [] data none 0 n (by simp) (by simpa [lastOr_nil] using hm)
    simpa [FindIndex, hn] using this

/-- C4: a buffer at whose offset 0 the pattern does not match is returned unchanged,
with the very context that was passed in and no error. -/
theorem processFrontmatter_no_opening (deps : Deps) (data : Bytes) (context : Value)
    (h : matchProg frontmatterRegexp none data = none) :
    processFrontmatter deps data context = .ok (data, context) := by
  unfold processFrontmatter FindIndex
  cases hf : findFrom frontmatterRegexp none data 0 with
  | none => rfl
  | some r =>
    obtain ⟨s, e⟩ := r
    have hs : s ≠ 0 := by
      rintro rfl
      obtain ⟨a, b, n, hab, hs, -, hm⟩ := findFrom_inv _ _ _ _ _ _ hf
      have ha : a = [] := by
        have : a.length = 0 := by omega
        simpa using this
      subst ha
      simp only [List.nil_append] at hab
      subst hab
      rw [lastOr_nil, h] at hm
      cases hm
    simp [hs]

theorem processFrontmatter_no_opening_witness :
    matchProg frontmatterRegexp none (bytes "--- x\n---\n") = none ∧
      processFrontmatter idDeps (bytes "--- x\n---\n") .null =
        .ok (bytes "--- x\n---\n", .null) :=
  ⟨by decide, processFrontmatter_no_opening _ _ _ (by decide)⟩

/-- C3: an opening delimiter line with no delimiter line after it gives the
`Cannot find end of front matter.` error: no body and no context, for every base
context and whatever the library calls would do. -/
theorem processFrontmatter_no_closing (deps : Deps) (data : Bytes) (context : Value)
    (hopen : startsDelimiterLine data = true)
    (hlater : ∀ l ∈ linesAfter data, startsDelimiterLine l = false) :
    processFrontmatter deps data context = .error "Cannot find end of front matter." := by
  obtain ⟨t, m, hd, hsp, hfi⟩ := FindIndex_of_startsDelimiterLine data hopen
  obtain ⟨-, htake, hdrop⟩ := spaceEnd_spec t m hsp
  have hret : data.drop (m + 3) = t.drop m := by simp [hd]
  have hnone : FindIndex frontmatterRegexp (t.drop m) = none := by
    apply findFrom_eq_none
    intro a b hab
    cases hm : matchProg frontmatterRegexp (lastOr none a) b with
    | none => rfl
    | some n =>
      exfalso
      have hsome := (matchProg_isSome_iff (lastOr none a) b).mp (by simp [hm])
      obtain ⟨hprev, hdel⟩ := hsome
      rcases hprev with hprev | hprev
      · have ha := lastOr_eq_none a hprev
        subst ha
        simp only [List.nil_append] at hab
        rcases hdrop with h0 | ⟨t2, h1, -⟩
        · rw [h0] at hab; subst hab; simp [startsDelimiterLine] at hdel
        · rw [h1] at hab; subst hab
          rw [startsDelimiterLine_cons_ne 10 _ (by decide)] at hdel
          cases hdel
      · obtain ⟨a1, rfl⟩ := lastOr_eq_some a 10 hprev
        have hmem : b ∈ linesAfter data := by
          have hdata : data = (45 :: 45 :: 45 :: (t.take m ++ a1)) ++ 10 :: b := by
            rw [hd]
            simp only [List.cons_append, List.append_assoc, List.singleton_append,
              List.nil_append] at hab ⊢
            rw [← hab, List.take_append_drop]
          rw [hdata]
          exact mem_linesAfter _ _
        rw [hlater b hmem] at hdel
        cases hdel
  unfold processFrontmatter
  simp only [hfi, hret, hnone]
  simp

theorem processFrontmatter_no_closing_witness :
    startsDelimiterLine (bytes "--- \nname: override\n--- x\n") = true ∧
      (∀ l ∈ linesAfter (bytes "--- \nname: override\n--- x\n"),
        startsDelimiterLine l = false) ∧
      processFrontmatter idDeps
          (bytes "--- \nname: override\n--- x\n") .null =
        .error "Cannot find end of front matter." :=
  ⟨by decide, by decide, processFrontmatter_no_closing _ _ _ (by decide) (by decide)⟩

/-- Both delimiters located: the shape of the input and of the result. -/
theorem processFrontmatter_found (deps : Deps) (data : Bytes) (context : Value)
    (e1 s2 e2 : Nat)
    (hopen : FindIndex frontmatterRegexp data = some (0, e1))
    (hclose : FindIndex frontmatterRegexp (data.drop e1) = some (s2, e2)) :
    ∃ ws1 fm ws2 body,
      fm = (data.drop e1).take s2 ∧ body = (data.drop e1).drop e2 ∧
      data = (45 :: 45 :: 45 :: ws1) ++ fm ++ (45 :: 45 :: 45 :: ws2) ++ body ∧
      (∀ b ∈ ws1, isSpace b = true) ∧ (∀ b ∈ ws2, isSpace b = true) ∧
      (body = [] ∨ ∃ t, body = 10 :: t ∧ blankLine t = false) ∧
      processFrontmatter deps data context = finish deps fm body context := by
  obtain ⟨t, m, hd, hsp, he1⟩ := FindIndex_zero_inv data e1 hopen
  obtain ⟨-, htake, -⟩ := spaceEnd_spec t m hsp
  have hret : data.drop e1 = t.drop m := by simp [hd, he1]
  rw [hret] at hclose
  obtain ⟨a, b, n, hab, hs2, he2, hm⟩ := findFrom_inv _ _ _ _ _ _ hclose
  obtain ⟨-, t2, m2, hb, hsp2, hn⟩ := matchProg_some_inv _ _ _ hm
  obtain ⟨-, htake2, hdrop2⟩ := spaceEnd_spec t2 m2 hsp2
  have h1 : List.take s2 (List.drop m t) = a := by
    rw [hab, hs2]; simp
  have h2 : List.drop e2 (List.drop m t) = t2.drop m2 := by
    rw [hab, he2, hn, hb]
    simp [List.drop_append]
  refine ⟨t.take m, a, t2.take m2, t2.drop m2, ?_, ?_, ?_, htake, htake2, hdrop2, ?_⟩
  · rw [hret, h1]
  · rw [hret, h2]
  · rw [hd]
    have : t = t.take m ++ (a ++ (45 :: 45 :: 45 :: (t2.take m2 ++ t2.drop m2))) := by
      rw [List.take_append_drop, ← hb, ← hab, List.take_append_drop]
    simp only [List.cons_append, List.append_assoc]
    rw [← this]
  · unfold processFrontmatter
    simp only [hopen, hret, hclose]
    simp [h1, h2, finish]

/-- C10: when both delimiters are found the input is, in order, the opening match,
the front matter handed to the decoder, the closing match and the returned body;
each match is `---` followed by whitespace only; the body is empty or is a line feed
followed by a line that has a non-whitespace byte. -/
theorem processFrontmatter_split (deps : Deps) (data : Bytes) (context : Value)
    (e1 s2 e2 : Nat)
    (hopen : FindIndex frontmatterRegexp data = some (0, e1))
    (hclose : FindIndex frontmatterRegexp (data.drop e1) = some (s2, e2)) :
    ∃ ws1 fm ws2 body,
      fm = (data.drop e1).take s2 ∧ body = (data.drop e1).drop e2 ∧
      data = (45 :: 45 :: 45 :: ws1) ++ fm ++ (45 :: 45 :: 45 :: ws2) ++ body ∧
      (∀ b ∈ ws1, isSpace b = true) ∧ (∀ b ∈ ws2, isSpace b = true) ∧
      (body = [] ∨ ∃ t, body = 10 :: t ∧ blankLine t = false) ∧
      processFrontmatter deps data context = finish deps fm body context :=
  processFrontmatter_found deps data context e1 s2 e2 hopen hclose

theorem processFrontmatter_split_witness :
    FindIndex frontmatterRegexp (bytes "---\nname: override\n---\n\x7b\x7b.name\x7d\x7d") =
        some (0, 3) ∧
      FindIndex frontmatterRegexp
          ((bytes "---\nname: override\n---\n\x7b\x7b.name\x7d\x7d").drop 3) =
        some (16, 19) ∧
      ∃ ws1 fm ws2 body,
        fm = ((bytes "---\nname: override\n---\n\x7b\x7b.name\x7d\x7d").drop 3).take 16 ∧
        body = ((bytes "---\nname: override\n---\n\x7b\x7b.name\x7d\x7d").drop 3).drop 19 ∧
        bytes "---\nname: override\n---\n\x7b\x7b.name\x7d\x7d" =
          (45 :: 45 :: 45 :: ws1) ++ fm ++ (45 :: 45 :: 45 :: ws2) ++ body ∧
        (∀ b ∈ ws1, isSpace b = true) ∧ (∀ b ∈ ws2, isSpace b = true) ∧
        (body = [] ∨ ∃ t, body = 10 :: t ∧ blankLine t = false) ∧
        processFrontmatter idDeps
            (bytes "---\nname: override\n---\n\x7b\x7b.name\x7d\x7d") .null =
          finish idDeps fm body .null :=
  ⟨by decide, by decide, processFrontmatter_split _ _ _ 3 16 19 (by decide) (by decide)⟩

theorem blankLine_append (l m : Bytes) (h : 10 ∈ l) :
    blankLine (l ++ m) = blankLine l := by
  induction l with
  | nil => simp at h
  | cons x l ih =>
    by_cases hx : x = 10
    · simp [blankLine, hx]
    · have hl : 10 ∈ l := by
        rcases List.mem_cons.mp h with h | h
        · exact absurd h.symm hx
        · exact h
      simp [blankLine, hx, ih hl]

theorem startsDelimiterLine_append (l m : Bytes) (h : 10 ∈ l) :
    startsDelimiterLine (l ++ m) = startsDelimiterLine l := by
  match l with
  | [] => simp at h
  | [a] =>
    simp at h
    subst h
    cases m <;> simp [startsDelimiterLine]
    rename_i x m
    cases m <;> simp [startsDelimiterLine]
  | [a, b] =>
    simp at h
    rcases h with h | h
    · subst h
      cases m <;> simp [startsDelimiterLine]
    · subst h
      cases m <;> simp [startsDelimiterLine]
  | a :: b :: c :: t =>
    by_cases h1 : a = 45 <;> by_cases h2 : b = 45 <;> by_cases h3 : c = 45 <;>
      simp [startsDelimiterLine, h1, h2, h3]
    subst h1 h2 h3
    have ht : 10 ∈ t := by simpa using h
    exact blankLine_append t m ht

theorem blankLine_space_ten (w t : Bytes) (hw : ∀ b ∈ w, isSpace b = true) :
    blankLine (w ++ 10 :: t) = true := by
  induction w with
  | nil => simp [blankLine]
  | cons x w ih =>
    have hx := hw x (by simp)
    have := ih (fun b hb => hw b (by simp [hb]))
    simp [blankLine, hx, this]

theorem line_start_cases (w fm c a2 : Bytes) (hw : ∀ b ∈ w, b ≠ 10)
    (h : c ++ 10 :: a2 = w ++ 10 :: fm) : a2 = fm ∨ ∃ c1, fm = c1 ++ 10 :: a2 := by
  induction w generalizing c with
  | nil =>
    cases c with
    | nil => left; simpa using h
    | cons y c =>
      right
      simp at h
      exact ⟨c, h.2.symm⟩
  | cons x w ih =>
    cases c with
    | nil =>
      simp at h
      exact absurd h.1.symm (hw x (by simp))
    | cons y c =>
      simp at h
      exact ih c (fun b hb => hw b (by simp [hb])) h.2

/-- The split of a buffer made of an opening delimiter line, a block of whole lines
without a delimiter line, a closing delimiter line and a rest `B`: the closing match
is `---` and what `spaceEnd` consumes of the bytes after it. -/
theorem processFrontmatter_lines (deps : Deps) (w1 fm w2 B : Bytes) (context : Value)
    (hw1 : ∀ b ∈ w1, isSpace b = true ∧ b ≠ 10)
    (hw2 : ∀ b ∈ w2, isSpace b = true ∧ b ≠ 10)
    (hfm : fm = [] ∨ fm.getLast? = some 10)
    (hno : ∀ l ∈ fm :: linesAfter fm, startsDelimiterLine l = false) :
    ∃ pre fmData m2, pre ++ fmData = w1 ++ 10 :: fm ∧ (∀ b ∈ pre, isSpace b = true) ∧
      spaceEnd (w2 ++ 10 :: B) = some m2 ∧
      processFrontmatter deps (delimiterLine w1 ++ fm ++ delimiterLine w2 ++ B) context =
        finish deps fmData ((w2 ++ 10 :: B).drop m2) context := by
  have hstmt : delimiterLine w1 ++ fm ++ delimiterLine w2 ++ B =
      (45 :: 45 :: 45 :: w1) ++ 10 :: fm ++ (45 :: 45 :: 45 :: w2) ++ 10 :: B := by
    simp [delimiterLine]
  rw [hstmt]
  set P : Bytes := w1 ++ 10 :: fm with hP
  set Q : Bytes := 45 :: 45 :: 45 :: (w2 ++ 10 :: B) with hQ
  have hdata : (45 :: 45 :: 45 :: w1) ++ 10 :: fm ++ (45 :: 45 :: 45 :: w2) ++ 10 :: B
      = 45 :: 45 :: 45 :: (P ++ Q) := by
    simp [hP, hQ]
  rw [hdata]
  have hPlast : P.getLast? = some 10 := by
    rcases hfm with h | h
    · simp [hP, h]
    · cases fm with
      | nil => simp at h
      | cons x fm =>
        have : w1 ++ 10 :: x :: fm = (w1 ++ [10]) ++ (x :: fm) := by simp
        rw [hP, this, List.getLast?_append_of_ne_nil _ (by simp)]
        exact h
  have hopen : startsDelimiterLine (45 :: 45 :: 45 :: (P ++ Q)) = true := by
    have : P ++ Q = w1 ++ 10 :: (fm ++ Q) := by simp [hP]
    simp [startsDelimiterLine, this, blankLine_space_ten w1 _ (fun b hb => (hw1 b hb).1)]
  obtain ⟨t, m, hd, hsp, hfi⟩ := FindIndex_of_startsDelimiterLine _ hopen
  have ht : t = P ++ Q := by simpa using hd.symm
  subst ht
  obtain ⟨hmle, htake, hdrop⟩ := spaceEnd_spec _ m hsp
  -- the opening match stops inside `P`
  have hmP : m < P.length := by
    by_contra hge
    push_neg at hge
    rcases Nat.eq_or_lt_of_le hge with heq | hlt
    · rw [← heq, List.drop_left] at hdrop
      rcases hdrop with h | ⟨t2, h, -⟩
      · simp [hQ] at h
      · simp [hQ] at h
    · have h45 : (45 : Nat) ∈ List.take m (P ++ Q) := by
        rw [List.take_append_eq_append_take]
        apply List.mem_append_right
        have : m - P.length = (m - P.length - 1) + 1 := by omega
        rw [this, hQ]
        simp
      have := htake 45 h45
      simp [isSpace] at this
  have hdropX : List.drop m (P ++ Q) = List.drop m P ++ Q := by
    rw [List.drop_append_of_le_length (le_of_lt hmP)]
  set Y : Bytes := List.drop m P with hY
  have hYne : Y ≠ [] := by
    intro h
    have := congrArg List.length h
    simp [hY] at this
    omega
  have hYlast : Y.getLast? = some 10 := by
    have : P = List.take m P ++ Y := (List.take_append_drop m P).symm
    rw [this, List.getLast?_append_of_ne_nil _ hYne] at hPlast
    exact hPlast
  have hYhead : ∃ y, Y = 10 :: y := by
    rw [hdropX] at hdrop
    rcases hdrop with h | ⟨t2, h, -⟩
    · simp [hYne] at h
    · cases hYc : Y with
      | nil => exact absurd hYc hYne
      | cons x y =>
        rw [hYc] at h
        simp at h
        exact ⟨y, by rw [h.1]⟩
  -- the closing match
  obtain ⟨m2, hm2⟩ : ∃ m2, spaceEnd (w2 ++ 10 :: B) = some m2 := by
    cases hs : spaceEnd (w2 ++ 10 :: B) with
    | some m2 => exact ⟨m2, rfl⟩
    | none =>
      rw [spaceEnd_eq_none_iff, blankLine_space_ten w2 B (fun b hb => (hw2 b hb).1)] at hs
      cases hs
  have hQm : matchProg frontmatterRegexp (lastOr none Y) Q = some (m2 + 3) := by
    have hl : lastOr none Y = some 10 := by simp [lastOr, hYlast]
    rw [matchProg_frontmatter, hl, hQ]
    simp [hm2]
  have hnoY : ∀ a1 a2, Y = a1 ++ a2 → a2 ≠ [] →
      matchProg frontmatterRegexp (lastOr none a1) (a2 ++ Q) = none := by
    intro a1 a2 hsplit ha2
    cases hmm : matchProg frontmatterRegexp (lastOr none a1) (a2 ++ Q) with
    | none => rfl
    | some n =>
      exfalso
      obtain ⟨hprev, hdel⟩ :=
        (matchProg_isSome_iff (lastOr none a1) (a2 ++ Q)).mp (by rw [hmm]; rfl)
      have ha2last : a2.getLast? = some 10 := by
        rw [hsplit, List.getLast?_append_of_ne_nil _ ha2] at hYlast
        exact hYlast
      have h10 : 10 ∈ a2 := List.mem_of_getLast?_eq_some ha2last
      rw [startsDelimiterLine_append a2 Q h10] at hdel
      rcases hprev with hprev | hprev
      · have := lastOr_eq_none a1 hprev
        subst this
        obtain ⟨y, hy⟩ := hYhead
        simp only [List.nil_append] at hsplit
        rw [← hsplit, hy, startsDelimiterLine_cons_ne 10 _ (by decide)] at hdel
        cases hdel
      · obtain ⟨a0, rfl⟩ := lastOr_eq_some a1 10 hprev
        have hPsplit : (List.take m P ++ a0) ++ 10 :: a2 = w1 ++ 10 :: fm := by
          have hPY : List.take m P ++ Y = P := List.take_append_drop m P
          rw [← hP]
          conv_rhs => rw [← hPY, hsplit]
          simp
        have hmem : a2 ∈ fm :: linesAfter fm := by
          rcases line_start_cases w1 fm _ a2 (fun b hb => (hw1 b hb).2) hPsplit with h | ⟨c1, h⟩
          · simp [h]
          · rw [h]
            exact List.mem_cons_of_mem _ (mem_linesAfter _ _)
        rw [hno a2 hmem] at hdel
        cases hdel
  have hfi2 := findFrom_first frontmatterRegexp Y Q none 0 _ hnoY hQm
  refine ⟨List.take m P, Y, m2, List.take_append_drop m P, ?_, hm2, ?_⟩
  · intro b hb
    apply htake
    rw [List.take_append_of_le_length (le_of_lt hmP)]
    exact hb
  · unfold processFrontmatter
    simp only [hfi]
    have hret : List.drop (m + 3) (45 :: 45 :: 45 :: (P ++ Q)) = Y ++ Q := by
      simp [hdropX]
    simp only [hret, FindIndex, hfi2]
    simp [finish, hQ]

/-- C2, as the code has it: after an opening delimiter line, a block of whole lines
none of which is a delimiter line, and a closing delimiter line, the returned body
is the line feed that ended the closing delimiter line followed by `B` when the first
line of `B` has a non-whitespace byte; it is empty when `B` is whitespace only; and in
general it starts at the last line feed before the first non-whitespace byte of `B`. -/
theorem processFrontmatter_body (deps : Deps) (w1 fm w2 B : Bytes) (context : Value)
    (hw1 : ∀ b ∈ w1, isSpace b = true ∧ b ≠ 10)
    (hw2 : ∀ b ∈ w2, isSpace b = true ∧ b ≠ 10)
    (hfm : fm = [] ∨ fm.getLast? = some 10)
    (hno : ∀ l ∈ fm :: linesAfter fm, startsDelimiterLine l = false) :
    ∃ pre fmData body, pre ++ fmData = w1 ++ 10 :: fm ∧ (∀ b ∈ pre, isSpace b = true) ∧
      processFrontmatter deps (delimiterLine w1 ++ fm ++ delimiterLine w2 ++ B) context =
        finish deps fmData body context ∧
      (blankLine B = false → body = 10 :: B) ∧
      ((∀ b ∈ B, isSpace b = true) → body = []) ∧
      ((∃ b ∈ B, isSpace b = false) →
        ∃ ws line, 10 :: B = ws ++ 10 :: line ∧ (∀ b ∈ ws, isSpace b = true) ∧
          blankLine line = false ∧ body = 10 :: line) := by
  obtain ⟨pre, fmData, m2, hpre, hsp, hm2, hres⟩ :=
    processFrontmatter_lines deps w1 fm w2 B context hw1 hw2 hfm hno
  have hw2s : ∀ b ∈ w2, isSpace b = true := fun b hb => (hw2 b hb).1
  obtain ⟨hle, htake, hdrop⟩ := spaceEnd_spec _ m2 hm2
  refine ⟨pre, fmData, (w2 ++ 10 :: B).drop m2, hpre, hsp, hres, ?_, ?_, ?_⟩
  · intro hB
    have := spaceEnd_append_ten w2 B hw2s hB
    rw [hm2] at this
    cases this
    simp
  · intro hB
    have hall : ∀ b ∈ w2 ++ 10 :: B, isSpace b = true := by
      intro b hb
      rcases List.mem_append.mp hb with h | h
      · exact hw2s b h
      · rcases List.mem_cons.mp h with h | h
        · rw [h]; exact isSpace_ten
        · exact hB b h
    have := spaceEnd_all_space _ hall
    rw [hm2] at this
    cases this
    simp
  · rintro ⟨c, hcB, hc⟩
    -- the match cannot reach past the non-whitespace byte `c`
    have hne : (w2 ++ 10 :: B).drop m2 ≠ [] := by
      intro hnil
      have hlen : (w2 ++ 10 :: B).length ≤ m2 := List.drop_eq_nil_iff.mp hnil
      have hc2 : c ∈ (w2 ++ 10 :: B).take m2 := by
        rw [List.take_of_length_le hlen]
        simp [hcB]
      rw [htake c hc2] at hc
      cases hc
    rcases hdrop with h0 | ⟨line, hline, hblank⟩
    · exact absurd h0 hne
    · -- the match covers the whole of `w2`, which has no line feed
      have hge : w2.length ≤ m2 := by
        by_contra hlt
        push_neg at hlt
        have hd : (w2 ++ 10 :: B).drop m2 = w2.drop m2 ++ 10 :: B := by
          rw [List.drop_append_of_le_length (le_of_lt hlt)]
        rw [hd] at hline
        cases hw : w2.drop m2 with
        | nil =>
          have := congrArg List.length hw
          simp at this
          omega
        | cons x rest =>
          rw [hw] at hline
          simp at hline
          have hx : x ∈ w2 := List.mem_of_mem_drop (by rw [hw]; simp)
          exact (hw2 x hx).2 hline.1
      refine ⟨(10 :: B).take (m2 - w2.length), line, ?_, ?_, hblank, hline⟩
      · have hd : (w2 ++ 10 :: B).drop m2 = (10 :: B).drop (m2 - w2.length) := by
          rw [List.drop_append_eq_append_drop, List.drop_of_length_le hge]
          simp
        rw [← hline, hd, List.take_append_drop]
      · intro b hb
        apply htake
        rw [List.take_append_eq_append_take]
        exact List.mem_append_right _ hb

theorem processFrontmatter_body_witness :
    (∀ b ∈ [32], isSpace b = true ∧ b ≠ 10) ∧
      (∀ l ∈ bytes "name: override\n" :: linesAfter (bytes "name: override\n"),
        startsDelimiterLine l = false) ∧
      blankLine (bytes "\x7b\x7b.name\x7d\x7d") = false ∧
      ∃ pre fmData body, pre ++ fmData = [] ++ 10 :: bytes "name: override\n" ∧
        (∀ b ∈ pre, isSpace b = true) ∧
        processFrontmatter idDeps
            (delimiterLine [] ++ bytes "name: override\n" ++ delimiterLine [32] ++
              bytes "\x7b\x7b.name\x7d\x7d") .null =
          finish idDeps fmData body .null ∧
        body = 10 :: bytes "\x7b\x7b.name\x7d\x7d" := by
  refine ⟨by decide, by decide, by decide, ?_⟩
  obtain ⟨pre, fmData, body, h1, h2, h3, h4, -, -⟩ :=
    processFrontmatter_body idDeps [] (bytes "name: override\n") [32]
      (bytes "\x7b\x7b.name\x7d\x7d") .null (by decide) (by decide) (by decide)
      (by decide)
  exact ⟨pre, fmData, body, h1, h2, h3, h4 (by decide)⟩

/-- C2 as stated fails on its own example: for `---\nname: override\n---\n{{.name}}`
the returned body is `\n{{.name}}`, the line feed of the closing delimiter line
included, and not `{{.name}}`. -/
theorem override_example_keeps_line_feed :
    processFrontmatter idDeps (bytes "---\nname: override\n---\n\x7b\x7b.name\x7d\x7d")
        (.scalar (bytes "world")) =
      .ok (bytes "\n\x7b\x7b.name\x7d\x7d", .scalar (bytes "world")) ∧
    bytes "\n\x7b\x7b.name\x7d\x7d" ≠ bytes "\x7b\x7b.name\x7d\x7d" :=
  ⟨by rfl, by decide⟩

/-- C5, as the code has it: a buffer whose first line is `---` followed only by
whitespace, the marker at offset 0, is treated as carrying front matter: the pattern
matches at offset 0, and the result is the missing-end error or the split result,
whose body lacks at least the six marker bytes. -/
theorem processFrontmatter_recognises (deps : Deps) (data : Bytes) (context : Value)
    (h : startsDelimiterLine data = true) :
    (∃ e1, FindIndex frontmatterRegexp data = some (0, e1)) ∧
      (processFrontmatter deps data context = .error "Cannot find end of front matter." ∨
        ∃ fm body, body.length + 6 ≤ data.length ∧
          processFrontmatter deps data context = finish deps fm body context) := by
  obtain ⟨t, m, hd, hsp, hfi⟩ := FindIndex_of_startsDelimiterLine data h
  refine ⟨⟨m + 3, hfi⟩, ?_⟩
  cases hc : FindIndex frontmatterRegexp (data.drop (m + 3)) with
  | none =>
    left
    unfold processFrontmatter
    simp [hfi, hc]
  | some r =>
    right
    obtain ⟨s2, e2⟩ := r
    obtain ⟨ws1, fm, ws2, body, -, -, hdata, -, -, -, hres⟩ :=
      processFrontmatter_found deps data context (m + 3) s2 e2 hfi hc
    refine ⟨fm, body, ?_, hres⟩
    rw [hdata]
    simp
    omega

theorem processFrontmatter_recognises_witness :
    startsDelimiterLine (bytes "--- \nname: override\n---\nbody") = true ∧
      (∃ e1, FindIndex frontmatterRegexp (bytes "--- \nname: override\n---\nbody") =
        some (0, e1)) ∧
      (processFrontmatter idDeps (bytes "--- \nname: override\n---\nbody") .null =
          .error "Cannot find end of front matter." ∨
        ∃ fm body, body.length + 6 ≤ (bytes "--- \nname: override\n---\nbody").length ∧
          processFrontmatter idDeps (bytes "--- \nname: override\n---\nbody") .null =
            finish idDeps fm body .null) :=
  ⟨by decide, processFrontmatter_recognises idDeps _ .null (by decide)⟩

/-- C5 as stated fails: with whitespace before the marker the first line is not an
opening delimiter: the pattern does not match at offset 0 and the buffer comes back
unchanged with the base context. -/
theorem leading_space_not_recognised :
    matchProg frontmatterRegexp none (bytes " ---\nname: override\n---\nbody") = none ∧
    processFrontmatter idDeps (bytes " ---\nname: override\n---\nbody")
        (.scalar (bytes "world")) =
      .ok (bytes " ---\nname: override\n---\nbody", .scalar (bytes "world")) :=
  ⟨by decide, by rfl⟩

theorem bytes_templates : isFileName templateDir = true := by decide

theorem bytes_output : isFileName outputDir = true := by decide

theorem intercalate_getLast (comps : List Bytes) (hne : comps ≠ []) :
    ∃ q, [47].intercalate comps = q ++ comps.getLast hne := by
  induction comps with
  | nil => exact absurd rfl hne
  | cons c comps ih =>
    cases comps with
    | nil => exact ⟨[], by simp [intercalate_single]⟩
    | cons d comps =>
      obtain ⟨q, hq⟩ := ih (by simp)
      refine ⟨c ++ 47 :: q, ?_⟩
      rw [intercalate_cons_cons, hq]
      simp

/-- A file with a leading `_` and the extension `.tmpl` is parsed into the template
set under its name without the two. -/
theorem loadBaseTemplatesFn_underscore_tmpl {σ τ : Type} (os : OS σ) (eng : Engine τ) (fs : σ)
    (path : Bytes) (t : τ) (hp : HasPrefix (Base path) (bytes "_") = true)
    (he : Ext (Base path) = bytes ".tmpl") :
    ∃ n, 95 :: n ++ bytes ".tmpl" = Base path ∧
      loadBaseTemplatesFn os eng fs ⟨path, false, none⟩ t =
        match eng.NewParse t n (os.ReadFile path fs).1 with
        | .error err => (some err, t)
        | .ok t2 => (none, t2) := by
  refine ⟨TrimPrefix (TrimSuffix (Base path) (Ext (Base path))) (bytes "_"),
    partial_name _ hp he, ?_⟩
  simp [loadBaseTemplatesFn, hp, he]

/-- Every other file leaves the template set as it is. -/
theorem loadBaseTemplatesFn_other {σ τ : Type} (os : OS σ) (eng : Engine τ) (fs : σ)
    (path : Bytes) (t : τ)
    (h : ¬(HasPrefix (Base path) (bytes "_") = true ∧ Ext (Base path) = bytes ".tmpl")) :
    loadBaseTemplatesFn os eng fs ⟨path, false, none⟩ t = (none, t) := by
  by_cases hp : HasPrefix (Base path) (bytes "_") = true
  · have he : Ext (Base path) ≠ bytes ".tmpl" := fun he => h ⟨hp, he⟩
    simp [loadBaseTemplatesFn, hp, he]
  · simp [loadBaseTemplatesFn, hp]

/-- A file with a leading `_` is skipped by the second pass. -/
theorem evalTemplatesFn_underscore {σ τ : Type} (os : OS σ) (eng : Engine τ) (deps : Deps)
    (t : τ) (context : Value) (fs : σ) (path : Bytes)
    (hp : HasPrefix (Base path) (bytes "_") = true) :
    evalTemplatesFn os eng deps t context ⟨path, false, none⟩ fs = (none, fs) := by
  simp [evalTemplatesFn, hp]

/-- A template without a leading `_` is rendered to the mirrored path without its
extension. -/
theorem evalTemplatesFn_render {σ τ : Type} (os : OS σ) (eng : Engine τ) (deps : Deps)
    (t : τ) (context : Value) (fs : σ) (comps : List Bytes) (hne : comps ≠ [])
    (hnames : ∀ c ∈ comps, isFileName c = true)
    (hp : HasPrefix (Base (templateDir ++ 47 :: [47].intercalate comps)) (bytes "_") = false)
    (he : Ext (Base (templateDir ++ 47 :: [47].intercalate comps)) = bytes ".tmpl") :
    ∃ stem, [47].intercalate comps = stem ++ bytes ".tmpl" ∧
      evalTemplatesFn os eng deps t context
          ⟨templateDir ++ 47 :: [47].intercalate comps, false, none⟩ fs =
        evalTemplate os eng deps (templateDir ++ 47 :: [47].intercalate comps)
          (outputDir ++ 47 :: stem) t context fs := by
  have hb := Base_intercalate templateDir comps hne hnames
  obtain ⟨q, hq⟩ := intercalate_getLast comps hne
  obtain ⟨pre, hpre⟩ := Ext_suffix (Base (templateDir ++ 47 :: [47].intercalate comps))
    (by rw [he, bytes_tmpl]; simp)
  rw [he, hb] at hpre
  have hrel : [47].intercalate comps = (q ++ pre) ++ bytes ".tmpl" := by
    rw [hq, hpre]; simp
  refine ⟨q ++ pre, hrel, ?_⟩
  have hout : TrimSuffix (outputDir ++ 47 :: [47].intercalate comps) (bytes ".tmpl") =
      outputDir ++ 47 :: (q ++ pre) := by
    have : outputDir ++ 47 :: [47].intercalate comps =
        (outputDir ++ 47 :: (q ++ pre)) ++ bytes ".tmpl" := by
      rw [hrel]; simp
    rw [this, TrimSuffix_append]
  simp only [evalTemplatesFn, hp, he, Rel_names templateDir comps bytes_templates hne hnames,
    Join_names outputDir comps bytes_output hne hnames, hout]
  simp

/-- Any other file without a leading `_` is copied to the mirrored path. -/
theorem evalTemplatesFn_copy {σ τ : Type} (os : OS σ) (eng : Engine τ) (deps : Deps)
    (t : τ) (context : Value) (fs : σ) (comps : List Bytes) (hne : comps ≠ [])
    (hnames : ∀ c ∈ comps, isFileName c = true)
    (hp : HasPrefix (Base (templateDir ++ 47 :: [47].intercalate comps)) (bytes "_") = false)
    (he : Ext (Base (templateDir ++ 47 :: [47].intercalate comps)) ≠ bytes ".tmpl") :
    evalTemplatesFn os eng deps t context
        ⟨templateDir ++ 47 :: [47].intercalate comps, false, none⟩ fs =
      copyFile os (templateDir ++ 47 :: [47].intercalate comps)
        (outputDir ++ 47 :: [47].intercalate comps) fs := by
  simp only [evalTemplatesFn, hp, he, Rel_names templateDir comps bytes_templates hne hnames,
    Join_names outputDir comps bytes_output hne hnames]
  simp

/-- A copy whose steps all succeed writes the bytes of the source to the output. -/
theorem copyFile_bytes {σ : Type} (os : OS σ) (path output s : Bytes) (fs fs1 fs2 : σ)
    (hopen : os.Open path fs = .ok s) (hdir : os.MkdirAll (Dir output) fs = (none, fs1))
    (hcreate : os.Create output fs1 = (none, fs2)) :
    copyFile os path output fs = os.Write output s fs2 := by
  unfold copyFile
  simp only [hopen, hdir, hcreate]
  rcases hw : os.Write output s fs2 with ⟨_ | err, fs3⟩ <;> rfl

/-- A source that cannot be opened: `copyFile` returns `nil` and leaves the file
system as it is. -/
theorem copyFile_open_error {σ : Type} (os : OS σ) (path output : Bytes) (fs : σ)
    (err : Error) (hopen : os.Open path fs = .error err) :
    copyFile os path output fs = (none, fs) := by
  simp [copyFile, hopen]


/-- C6: a file is registered as a base template exactly when its base name starts
with `_` and has the extension `.tmpl`; the name `n` it is parsed under satisfies
`_` ++ n ++ `.tmpl` = base name, whatever directory the file is in.  Any other file
leaves the template set unchanged. -/
theorem loadBaseTemplatesFn_registers {σ τ : Type} (os : OS σ) (eng : Engine τ) (fs : σ)
    (path : Bytes) (t : τ) :
    (HasPrefix (Base path) (bytes "_") = true ∧ Ext (Base path) = bytes ".tmpl" →
      ∃ n, 95 :: n ++ bytes ".tmpl" = Base path ∧
        loadBaseTemplatesFn os eng fs ⟨path, false, none⟩ t =
          match eng.NewParse t n (os.ReadFile path fs).1 with
          | .error err => (some err, t)
          | .ok t2 => (none, t2)) ∧
    (¬(HasPrefix (Base path) (bytes "_") = true ∧ Ext (Base path) = bytes ".tmpl") →
      loadBaseTemplatesFn os eng fs ⟨path, false, none⟩ t = (none, t)) :=
  ⟨fun h => loadBaseTemplatesFn_underscore_tmpl os eng fs path t h.1 h.2,
    fun h => loadBaseTemplatesFn_other os eng fs path t h⟩

theorem loadBaseTemplatesFn_registers_witness :
    Base (bytes "templates/partials/_header.tmpl") = bytes "_header.tmpl" ∧
      ∃ n, 95 :: n ++ bytes ".tmpl" = Base (bytes "templates/partials/_header.tmpl") ∧
        loadBaseTemplatesFn memOS echoEngine
            ⟨[(bytes "templates/partials/_header.tmpl", bytes "Hi")], []⟩
            ⟨bytes "templates/partials/_header.tmpl", false, none⟩ [] =
          match echoEngine.NewParse [] n
            (memOS.ReadFile (bytes "templates/partials/_header.tmpl")
              ⟨[(bytes "templates/partials/_header.tmpl", bytes "Hi")], []⟩).1 with
          | .error err => (some err, [])
          | .ok t2 => (none, t2) :=
  ⟨by decide,
    (loadBaseTemplatesFn_registers memOS echoEngine
      ⟨[(bytes "templates/partials/_header.tmpl", bytes "Hi")], []⟩
      (bytes "templates/partials/_header.tmpl") []).1 ⟨by decide, by decide⟩⟩

/-- C7: a file at `templates/<rel>` whose base name has no leading `_` goes to the
mirrored path under `output`: with the extension `.tmpl` it is rendered to
`output/<rel without the trailing .tmpl>`, otherwise it is copied to `output/<rel>`.
The relative path is the list `comps` of file names joined by slashes, which is what
the walk of a directory tree produces. -/
theorem evalTemplatesFn_output {σ τ : Type} (os : OS σ) (eng : Engine τ) (deps : Deps)
    (t : τ) (context : Value) (fs : σ) (comps : List Bytes) (hne : comps ≠ [])
    (hnames : ∀ c ∈ comps, isFileName c = true)
    (hp : HasPrefix (Base (templateDir ++ 47 :: [47].intercalate comps)) (bytes "_") = false) :
    (Ext (Base (templateDir ++ 47 :: [47].intercalate comps)) = bytes ".tmpl" →
      ∃ stem, [47].intercalate comps = stem ++ bytes ".tmpl" ∧
        evalTemplatesFn os eng deps t context
            ⟨templateDir ++ 47 :: [47].intercalate comps, false, none⟩ fs =
          evalTemplate os eng deps (templateDir ++ 47 :: [47].intercalate comps)
            (outputDir ++ 47 :: stem) t context fs) ∧
    (Ext (Base (templateDir ++ 47 :: [47].intercalate comps)) ≠ bytes ".tmpl" →
      evalTemplatesFn os eng deps t context
          ⟨templateDir ++ 47 :: [47].intercalate comps, false, none⟩ fs =
        copyFile os (templateDir ++ 47 :: [47].intercalate comps)
          (outputDir ++ 47 :: [47].intercalate comps) fs) :=
  ⟨fun he => evalTemplatesFn_render os eng deps t context fs comps hne hnames hp he,
    fun he => evalTemplatesFn_copy os eng deps t context fs comps hne hnames hp he⟩

theorem evalTemplatesFn_output_witness :
    templateDir ++ 47 :: [47].intercalate [bytes "sub", bytes "page.tmpl"] =
        bytes "templates/sub/page.tmpl" ∧
      ∃ stem, [47].intercalate [bytes "sub", bytes "page.tmpl"] = stem ++ bytes ".tmpl" ∧
        evalTemplatesFn memOS echoEngine idDeps [] .null
            ⟨templateDir ++ 47 :: [47].intercalate [bytes "sub", bytes "page.tmpl"],
              false, none⟩
            ⟨[(bytes "templates/sub/page.tmpl", bytes "Hi")], []⟩ =
          evalTemplate memOS echoEngine idDeps
            (templateDir ++ 47 :: [47].intercalate [bytes "sub", bytes "page.tmpl"])
            (outputDir ++ 47 :: stem) [] .null
            ⟨[(bytes "templates/sub/page.tmpl", bytes "Hi")], []⟩ :=
  ⟨by decide,
    (evalTemplatesFn_output memOS echoEngine idDeps [] .null
      ⟨[(bytes "templates/sub/page.tmpl", bytes "Hi")], []⟩
      [bytes "sub", bytes "page.tmpl"] (by decide) (by decide) (by decide)).1 (by decide)⟩

/-- What the two passes do with a file of the template tree, at `templates/<comps
joined by slashes>`, by kind.  A file with a leading `_` and the extension `.tmpl` is
registered and skipped by the second pass; a template without a leading `_` is
rendered; a file without a leading `_` and without the extension `.tmpl` is copied,
byte for byte when the copy succeeds; a file with a leading `_` and without the
extension `.tmpl` is passed over by both passes. -/
theorem file_kinds {σ τ : Type} (os : OS σ) (eng : Engine τ) (deps : Deps)
    (t : τ) (context : Value) (fs : σ) (comps : List Bytes) (hne : comps ≠ [])
    (hnames : ∀ c ∈ comps, isFileName c = true) :
    (HasPrefix (Base (templateDir ++ 47 :: [47].intercalate comps)) (bytes "_") = true ∧
        Ext (Base (templateDir ++ 47 :: [47].intercalate comps)) = bytes ".tmpl" →
      (∃ n, 95 :: n ++ bytes ".tmpl" = Base (templateDir ++ 47 :: [47].intercalate comps) ∧
        loadBaseTemplatesFn os eng fs
            ⟨templateDir ++ 47 :: [47].intercalate comps, false, none⟩ t =
          match eng.NewParse t n
            (os.ReadFile (templateDir ++ 47 :: [47].intercalate comps) fs).1 with
          | .error err => (some err, t)
          | .ok t2 => (none, t2)) ∧
      evalTemplatesFn os eng deps t context
        ⟨templateDir ++ 47 :: [47].intercalate comps, false, none⟩ fs = (none, fs)) ∧
    (HasPrefix (Base (templateDir ++ 47 :: [47].intercalate comps)) (bytes "_") = false ∧
        Ext (Base (templateDir ++ 47 :: [47].intercalate comps)) = bytes ".tmpl" →
      loadBaseTemplatesFn os eng fs
        ⟨templateDir ++ 47 :: [47].intercalate comps, false, none⟩ t = (none, t) ∧
      ∃ stem, [47].intercalate comps = stem ++ bytes ".tmpl" ∧
        evalTemplatesFn os eng deps t context
            ⟨templateDir ++ 47 :: [47].intercalate comps, false, none⟩ fs =
          evalTemplate os eng deps (templateDir ++ 47 :: [47].intercalate comps)
            (outputDir ++ 47 :: stem) t context fs) ∧
    (HasPrefix (Base (templateDir ++ 47 :: [47].intercalate comps)) (bytes "_") = false ∧
        Ext (Base (templateDir ++ 47 :: [47].intercalate comps)) ≠ bytes ".tmpl" →
      loadBaseTemplatesFn os eng fs
        ⟨templateDir ++ 47 :: [47].intercalate comps, false, none⟩ t = (none, t) ∧
      evalTemplatesFn os eng deps t context
          ⟨templateDir ++ 47 :: [47].intercalate comps, false, none⟩ fs =
        copyFile os (templateDir ++ 47 :: [47].intercalate comps)
          (outputDir ++ 47 :: [47].intercalate comps) fs ∧
      ∀ s fs1 fs2, os.Open (templateDir ++ 47 :: [47].intercalate comps) fs = .ok s →
        os.MkdirAll (Dir (outputDir ++ 47 :: [47].intercalate comps)) fs = (none, fs1) →
        os.Create (outputDir ++ 47 :: [47].intercalate comps) fs1 = (none, fs2) →
        copyFile os (templateDir ++ 47 :: [47].intercalate comps)
            (outputDir ++ 47 :: [47].intercalate comps) fs =
          os.Write (outputDir ++ 47 :: [47].intercalate comps) s fs2) ∧
    (HasPrefix (Base (templateDir ++ 47 :: [47].intercalate comps)) (bytes "_") = true ∧
        Ext (Base (templateDir ++ 47 :: [47].intercalate comps)) ≠ bytes ".tmpl" →
      loadBaseTemplatesFn os eng fs
        ⟨templateDir ++ 47 :: [47].intercalate comps, false, none⟩ t = (none, t) ∧
      evalTemplatesFn os eng deps t context
        ⟨templateDir ++ 47 :: [47].intercalate comps, false, none⟩ fs = (none, fs)) := by
  refine ⟨fun h => ⟨loadBaseTemplatesFn_underscore_tmpl os eng fs _ t h.1 h.2,
      evalTemplatesFn_underscore os eng deps t context fs _ h.1⟩,
    fun h => ⟨loadBaseTemplatesFn_other os eng fs _ t (fun h2 => by simp [h.1] at h2),
      evalTemplatesFn_render os eng deps t context fs comps hne hnames h.1 h.2⟩,
    fun h => ⟨loadBaseTemplatesFn_other os eng fs _ t (fun h2 => by simp [h.1] at h2),
      evalTemplatesFn_copy os eng deps t context fs comps hne hnames h.1 h.2,
      fun s fs1 fs2 h1 h2 h3 => copyFile_bytes os _ _ s fs fs1 fs2 h1 h2 h3⟩,
    fun h => ⟨loadBaseTemplatesFn_other os eng fs _ t (fun h2 => h.2 h2.2),
      evalTemplatesFn_underscore os eng deps t context fs _ h.1⟩⟩

/-- C8, where the code departs from it: `_notes.txt`, a file that is not a template,
is not copied.  The run over a tree that holds only this file ends without an error
and without any file under `output`, and no template is registered for it either;
`copyFile` on the same file would have written `output/_notes.txt` with the same
bytes. -/
theorem underscore_file_not_copied :
    evalTemplates memOS echoEngine idDeps [] .null
        ⟨[(bytes "templates/_notes.txt", bytes "notes")], []⟩ =
      (none, ⟨[(bytes "templates/_notes.txt", bytes "notes")], []⟩) ∧
    loadBaseTemplates memOS echoEngine
        ⟨[(bytes "templates/_notes.txt", bytes "notes")], []⟩ [] = (none, []) ∧
    (copyFile memOS (bytes "templates/_notes.txt") (bytes "output/_notes.txt")
        ⟨[(bytes "templates/_notes.txt", bytes "notes")], []⟩).2.files =
      [(bytes "output/_notes.txt", bytes "notes"),
        (bytes "templates/_notes.txt", bytes "notes")] :=
  ⟨by decide, by decide, by decide⟩

/-- C9, where the code departs from it: `copyFile` on a source that cannot be opened
returns `nil` and writes nothing; `loadBaseTemplates` on a partial whose contents
cannot be read returns `nil` and registers the partial with empty text. -/
theorem io_failures_swallowed :
    memOS.Open (bytes "templates/logo.png") ⟨[], []⟩ = .error "no such file or directory" ∧
    copyFile memOS (bytes "templates/logo.png") (bytes "output/logo.png") ⟨[], []⟩ =
      (none, ⟨[], []⟩) ∧
    memOS.ReadFile (bytes "templates/_header.tmpl")
        ⟨[(bytes "templates/_header.tmpl", bytes "Hi")], [bytes "templates/_header.tmpl"]⟩ =
      ([], some "permission denied") ∧
    loadBaseTemplates memOS echoEngine
        ⟨[(bytes "templates/_header.tmpl", bytes "Hi")], [bytes "templates/_header.tmpl"]⟩ [] =
      (none, [(bytes "header", [])]) :=
  ⟨by rfl, by decide, by decide, by decide⟩

/-- With the decoder of `UnmarshalInterface`, a front matter that holds a document
decides the returned context alone: the base context does not enter the result. -/
theorem finish_yaml (parse : YamlParser) (fmData body : Bytes) (context node : Value)
    (h : parse fmData = .ok (some node)) :
    finish (yamlDeps parse) fmData body context = .ok (body, node) := by
  simp [finish, yamlDeps, UnmarshalInterface, h]

/-- C1, where the code departs from it: with base context `{name: world, site: x}`
and front matter `name: override` the returned context is `{name: override}`; the
key `site` of the base context is gone. -/
theorem processFrontmatter_replaces_context :
    processFrontmatter (yamlDeps overrideParser)
        (bytes "---\nname: override\n---\n\x7b\x7b.name\x7d\x7d")
        (.map [(.scalar (bytes "name"), .scalar (bytes "world")),
          (.scalar (bytes "site"), .scalar (bytes "x"))]) =
      .ok (bytes "\n\x7b\x7b.name\x7d\x7d",
        .map [(.scalar (bytes "name"), .scalar (bytes "override"))]) := by
  rfl

end Stegosaurus
